import Mathlib

/-!
Shallow embedding of `app/blockchain_server.py` (classes `Block`, `BlockChain`,
and the module-level `consensus` function).

Modelling conventions:
* The digest `sha256(json.dumps(info, sort_keys=True).encode()).hexdigest()` is
  a fixed deterministic function of the five fields placed in the `info` dict;
  it is kept abstract as a parameter `H : BlockInfo -> String`, since no claim
  depends on SHA-256 internals, only on which fields feed the digest.
* Python attributes that can be removed with `delattr` are modelled as
  `Option String` fields; reading an absent attribute (AttributeError) makes
  the embedded operation return `none`.
* The unbounded `while` loop of `Block.proof_of_work` is modelled with a fuel
  parameter; `none` means the search did not finish within the fuel (or the
  block had no `hashcode` attribute).
* `time.time()` in the default argument `timestamp=time.time()` of
  `Block.__init__` is evaluated exactly once in CPython, when the `class Block`
  body is executed; the parameter `t0` models that single evaluation, so every
  construction that omits `timestamp` receives the same value `t0`.
* Application records (the dicts in `unconfirmed_data` / block `content`) are
  opaque to the core, modelled as `String`.
-/

/-- The five fields of the `info` dict serialized by `Block.compute_hash`. -/
structure BlockInfo where
  index : Nat
  content : List String
  previous_hash : String
  timestamp : Nat
  nonce : Nat
deriving DecidableEq

/-- Attribute state of a Python `Block` object.  `hashcode` and `this_hash`
are `Option` because `BlockChain.chain_is_valid` removes the former with
`delattr` and creates the latter by assignment. -/
structure Block where
  index : Nat
  content : List String
  previous_hash : String
  timestamp : Nat
  nonce : Nat
  hashcode : Option String
  this_hash : Option String
deriving DecidableEq

/-- Python's `str.startswith` on our strings. -/
def pyStartswith (s pre : String) : Bool :=
  pre.data.isPrefixOf s.data

/-- The string `'0' * d`. -/
def zeros (d : Nat) : String :=
  String.mk (List.replicate d '0')

/-- `Block.compute_hash`: the digest of the current five content fields.  It
does not read `hashcode` or `this_hash`. -/
def computeHash (H : BlockInfo → String) (b : Block) : String :=
  H { index := b.index, content := b.content, previous_hash := b.previous_hash,
      timestamp := b.timestamp, nonce := b.nonce }

/-- `Block.__init__(index, content, previous_hash, timestamp=time.time(), nonce=0,
hashcode=None)`.  The body assigns `self.nonce = 0` and
`self.hashcode = self.compute_hash`, so the `nonce` and `hashcode` arguments are
never read.  `t0` is the module-level value of the `time.time()` default (see
the header comment): an omitted `timestamp` (`none`) receives `t0`. -/
def blockNew (H : BlockInfo → String) (t0 : Nat) (index : Nat) (content : List String)
    (previous_hash : String) (timestamp : Option Nat) (nonce : Nat)
    (hashcode : Option String) : Block :=
  let ts := timestamp.getD t0
  { index := index, content := content, previous_hash := previous_hash,
    timestamp := ts, nonce := 0,
    hashcode := some (H { index := index, content := content,
                          previous_hash := previous_hash, timestamp := ts, nonce := 0 }),
    this_hash := none }

/-- `Block.proof_of_work(difficulty)`: `while not self.hashcode.startswith('0'*difficulty):
self.nonce += 1; self.hashcode = self.compute_hash`.  Fuel bounds the number of
loop iterations; `none` models a search that has not yet terminated (or an
absent `hashcode` attribute). -/
def proofOfWork (H : BlockInfo → String) (difficulty : Nat) : Nat → Block → Option Block
  | 0, b =>
    match b.hashcode with
    | none => none
    | some h =>
      if pyStartswith h (zeros difficulty) then some b else none
  | fuel2 + 1, b =>
    match b.hashcode with
    | none => none
    | some h =>
      if pyStartswith h (zeros difficulty) then some b
      else
        let b2 : Block := { b with nonce := b.nonce + 1 }
        proofOfWork H difficulty fuel2 { b2 with hashcode := some (computeHash H b2) }

/-- The `BlockChain` object: the pending buffer `unconfirmed_data` and the
block list `chain`. -/
structure BlockChain where
  unconfirmed_data : List String
  chain : List Block
deriving DecidableEq

/-- The class attribute `BlockChain.difficulty = 4`. -/
def BlockChain.difficulty : Nat := 4

/-- `BlockChain.is_valid_proof(block, block_hash)`: the claimed hash must start
with `difficulty` zero characters and equal the recomputed digest of the
block's current fields. -/
def is_valid_proof (H : BlockInfo → String) (block : Block) (block_hash : String) : Bool :=
  pyStartswith block_hash (zeros BlockChain.difficulty) && block_hash == computeHash H block

/-- `BlockChain._generate_genesis_block`: `Block(0, [], "0")` followed by
`proof_of_work(difficulty)`. -/
def generateGenesisBlock (H : BlockInfo → String) (t0 fuel : Nat) : Option Block :=
  proofOfWork H BlockChain.difficulty fuel (blockNew H t0 0 [] ("0") none 0 none)

/-- `BlockChain.__init__`: empty pending buffer and a chain holding only the
freshly mined genesis block. -/
def blockchainInit (H : BlockInfo → String) (t0 fuel : Nat) : Option BlockChain :=
  (generateGenesisBlock H t0 fuel).map (fun g => { unconfirmed_data := [], chain := [g] })

/-- `BlockChain.add_data(data)`: append to the pending buffer. -/
def add_data (c : BlockChain) (d : String) : BlockChain :=
  { c with unconfirmed_data := c.unconfirmed_data ++ [d] }

/-- `BlockChain.add_block(block, proof)`: reject (returning `False` with the
ledger unchanged) when the stored hash of the current last block differs from
`block.previous_hash`, or when `is_valid_proof(block, proof)` fails; otherwise
set `block.hashcode = proof`, append the block and return `True`.  `none`
models the AttributeError/IndexError paths (empty chain, or a last block whose
`hashcode` attribute is absent). -/
def add_block (H : BlockInfo → String) (c : BlockChain) (block : Block) (proof : String) :
    Option (Bool × BlockChain) :=
  match c.chain.getLast? with
  | none => none
  | some last =>
    match last.hashcode with
    | none => none
    | some previous_hash =>
      if previous_hash != block.previous_hash then
        some (false, c)
      else if !(is_valid_proof H block proof) then
        some (false, c)
      else
        some (true, { c with chain := c.chain ++ [{ block with hashcode := some proof }] })

/-- Result of `BlockChain.mine`: Python returns `False` when there is no
pending data, and otherwise the index of the last block after mining. -/
inductive MineResult where
  | noData : MineResult
  | mined : Nat → MineResult
deriving DecidableEq

/-- `BlockChain.mine()`: snapshot the last block; if the pending buffer is
empty return `False`; otherwise build `Block(last.index+1, unconfirmed_data,
last.hashcode)`, seal it with `proof_of_work`, hand it to
`add_block(new_block, new_block.hashcode)` (the boolean result is discarded),
clear the pending buffer and return the current last block's index. -/
def mine (H : BlockInfo → String) (t0 fuel : Nat) (c : BlockChain) :
    Option (MineResult × BlockChain) :=
  match c.chain.getLast? with
  | none => none
  | some current_last =>
    if c.unconfirmed_data.isEmpty then
      some (MineResult.noData, c)
    else
      match current_last.hashcode with
      | none => none
      | some lastHash =>
        let new_block := blockNew H t0 (current_last.index + 1) c.unconfirmed_data
          lastHash none 0 none
        match proofOfWork H BlockChain.difficulty fuel new_block with
        | none => none
        | some sealed =>
          match sealed.hashcode with
          | none => none
          | some proof =>
            match add_block H c sealed proof with
            | none => none
            | some (_, c1) =>
              let c2 : BlockChain := { c1 with unconfirmed_data := [] }
              match c2.chain.getLast? with
              | none => none
              | some lb => some (MineResult.mined lb.index, c2)

/-- Loop body of `BlockChain.chain_is_valid`, threading the running
`previous_hash` variable and returning both the outcome and the mutated list
(the Python loop mutates the blocks of the list in place).  For each block it
reads `block.hashcode` (`none` result models the AttributeError when the
attribute is absent), removes the attribute with `delattr`, returns `False`
when `is_valid_proof` fails or when `previous_hash == block.previous_hash`
(the source's test is `not previous_hash != block.previous_hash`), and
otherwise stores the saved hash under the attribute `this_hash` and continues
with `previous_hash = block_hash`. -/
def chainIsValidGo (H : BlockInfo → String) : String → List Block → Option Bool × List Block
  | _, [] => (some true, [])
  | previous_hash, block :: rest =>
    match block.hashcode with
    | none => (none, block :: rest)
    | some block_hash =>
      let b1 : Block := { block with hashcode := none }
      if !(is_valid_proof H b1 block_hash) || (previous_hash == b1.previous_hash) then
        (some false, b1 :: rest)
      else
        let b2 : Block := { b1 with this_hash := some block_hash }
        let r := chainIsValidGo H block_hash rest
        (r.1, b2 :: r.2)

/-- `BlockChain.chain_is_valid(chain)` started with `previous_hash = "0"`. -/
def chain_is_valid (H : BlockInfo → String) (chain : List Block) : Option Bool × List Block :=
  chainIsValidGo H ("0") chain

/-- The value of the module-level `blockchain` global after `consensus` ran:
either still a `BlockChain` object, or — after a replacement — the raw
(mutated) block list the peer sent, which the source assigns directly with
`blockchain = longest_chain`. -/
inductive NodeState where
  | ledger : BlockChain → NodeState
  | rawList : List Block → NodeState
deriving DecidableEq

/-- Loop of `consensus()` over the peer responses, each a pair of the reported
`length` field and the reported `chain` list.  A peer chain is considered only
when its reported length exceeds `max_len`; `chain_is_valid` is then run on it
(mutating it), and on success it becomes the candidate `longest_chain` while
`max_len` becomes the reported length.  `none` models an exception escaping
from `chain_is_valid`. -/
def consensusGo (H : BlockInfo → String) :
    Nat → Option (List Block) → List (Nat × List Block) → Option (Option (List Block))
  | _, longest, [] => some longest
  | max_len, longest, (length, node_chain) :: rest =>
    if max_len < length then
      match chain_is_valid H node_chain with
      | (none, _) => none
      | (some true, mutated) => consensusGo H length (some mutated) rest
      | (some false, _) => consensusGo H max_len longest rest
    else
      consensusGo H max_len longest rest

/-- `consensus()`: start from `max_len = len(blockchain.chain)` and no
candidate; after the loop, `if longest_chain:` (false for `None` and for an
empty list) either keeps the ledger and returns `False`, or assigns the raw
candidate list to the global `blockchain` and returns `True`. -/
def consensus (H : BlockInfo → String) (bc : BlockChain) (peers : List (Nat × List Block)) :
    Option (Bool × NodeState) :=
  match consensusGo H bc.chain.length none peers with
  | none => none
  | some none => some (false, NodeState.ledger bc)
  | some (some l) =>
    if l.isEmpty then some (false, NodeState.ledger bc)
    else some (true, NodeState.rawList l)

/-- One mutating ledger operation, for the reachability claims: a `/add_new_data`
submission, a `/mine` trigger, or a peer block handed to `add_block`. -/
inductive Op where
  | add_data_op : String → Op
  | mine_op : Nat → Op
  | add_block_op : Block → String → Op

/-- Whether the operation is a peer-block acceptance. -/
def Op.isPeerBlock : Op → Bool
  | Op.add_block_op _ _ => true
  | _ => false

/-- Apply one operation to the ledger, keeping only the resulting state. -/
def applyOp (H : BlockInfo → String) (t0 : Nat) (c : BlockChain) : Op → Option BlockChain
  | Op.add_data_op d => some (add_data c d)
  | Op.mine_op fuel => (mine H t0 fuel c).map Prod.snd
  | Op.add_block_op b p => (add_block H c b p).map Prod.snd

/-- Run a sequence of operations from a ledger state. -/
def runOps (H : BlockInfo → String) (t0 : Nat) : BlockChain → List Op → Option BlockChain
  | c, [] => some c
  | c, op :: ops =>
    match applyOp H t0 c op with
    | none => none
    | some c2 => runOps H t0 c2 ops

/-- A concrete stand-in digest used to evaluate the embedding on closed
inputs: it maps every field tuple to the four-zero string, which satisfies the
difficulty-4 predicate immediately. -/
def Htoy : BlockInfo → String := fun _ => ("0000")

/-- The genesis block produced by `blockchainInit` under the stand-in digest
`Htoy`: `Block(0, [], "0")` whose constructor-computed hash is already valid,
so `proof_of_work` exits without iterating. -/
def gBlockToy : Block := ⟨0, [], ("0"), 0, 0, some ("0000"), none⟩

/-- The freshly initialised ledger under `Htoy`: empty pending buffer,
genesis-only chain. -/
def bcToy : BlockChain := ⟨[], [gBlockToy]⟩

/-- Invariants of the `proof_of_work` loop: the search changes only `nonce`
and `hashcode`; on termination the stored hash satisfies the leading-zero
predicate and — provided the stored hash matched the recomputed digest at
entry, as `Block.__init__` guarantees — still equals the recomputed digest. -/
theorem proofOfWork_spec (H : BlockInfo → String) (d : Nat) :
    ∀ (fuel : Nat) (b b' : Block), proofOfWork H d fuel b = some b' →
      b'.index = b.index ∧ b'.content = b.content ∧ b'.previous_hash = b.previous_hash ∧
      b'.timestamp = b.timestamp ∧ b'.this_hash = b.this_hash ∧
      ∃ hh, b'.hashcode = some hh ∧ pyStartswith hh (zeros d) = true ∧
        (b.hashcode = some (computeHash H b) → hh = computeHash H b') := by
  intro fuel
  induction fuel with
  | zero =>
    intro b b' h
    unfold proofOfWork at h
    split at h
    · exact absurd h (by simp)
    next hc heq =>
      split at h
      next hs =>
        cases h
        refine ⟨rfl, rfl, rfl, rfl, rfl, hc, heq, hs, ?_⟩
        intro hinv
        rw [heq] at hinv
        simp only [Option.some.injEq] at hinv
        exact hinv.symm ▸ rfl
      next hs => exact absurd h (by simp)
  | succ n ih =>
    intro b b' h
    unfold proofOfWork at h
    split at h
    · exact absurd h (by simp)
    next hc heq =>
      split at h
      next hs =>
        cases h
        refine ⟨rfl, rfl, rfl, rfl, rfl, hc, heq, hs, ?_⟩
        intro hinv
        rw [heq] at hinv
        simp only [Option.some.injEq] at hinv
        exact hinv.symm ▸ rfl
      next hs =>
        obtain ⟨h1, h2, h3, h4, h5, hh, hhc, hhs, hhi⟩ := ih _ b' h
        exact ⟨h1, h2, h3, h4, h5, hh, hhc, hhs, fun _ => hhi rfl⟩

/-- Case analysis of `add_block` on a ledger whose last block carries a stored
hash: the two rejecting branches return `False` with the ledger untouched, and
the accepting branch appends the block with its `hashcode` overwritten by the
supplied proof. -/
theorem add_block_spec (H : BlockInfo → String) (c : BlockChain) (b : Block)
    (proof : String) (last : Block) (lh : String)
    (hl : c.chain.getLast? = some last) (hh : last.hashcode = some lh) :
    (lh ≠ b.previous_hash → add_block H c b proof = some (false, c)) ∧
    (is_valid_proof H b proof = false → add_block H c b proof = some (false, c)) ∧
    (lh = b.previous_hash → is_valid_proof H b proof = true →
      add_block H c b proof = some (true,
        { c with chain := c.chain ++ [{ b with hashcode := some proof }] })) := by
  unfold add_block
  rw [hl]
  dsimp only
  rw [hh]
  dsimp only
  refine ⟨?_, ?_, ?_⟩
  · intro hne
    have hb : (lh != b.previous_hash) = true := bne_iff_ne.mpr hne
    simp [hb]
  · intro hv
    by_cases hb : lh = b.previous_hash
    · simp [hb, hv]
    · have hbb : (lh != b.previous_hash) = true := bne_iff_ne.mpr hb
      simp [hbb]
  · intro heq hv
    have hb : (lh != b.previous_hash) = false := by
      simp [bne_iff_ne, heq]
    simp [hb, hv]

/-- Whatever `add_block` returns, the pending buffer is untouched and the
chain either stays as it was or grows by exactly the proposed block. -/
theorem add_block_cases (H : BlockInfo → String) (c : BlockChain) (b : Block) (p : String)
    (r : Bool) (c2 : BlockChain) (h : add_block H c b p = some (r, c2)) :
    c2.unconfirmed_data = c.unconfirmed_data ∧
    (c2.chain = c.chain ∨ c2.chain = c.chain ++ [{ b with hashcode := some p }]) := by
  unfold add_block at h
  split at h
  · exact absurd h (by simp)
  · split at h
    · exact absurd h (by simp)
    · split at h
      · simp only [Option.some.injEq, Prod.mk.injEq] at h
        obtain ⟨h1, h2⟩ := h
        subst h2
        exact ⟨rfl, Or.inl rfl⟩
      · split at h
        · simp only [Option.some.injEq, Prod.mk.injEq] at h
          obtain ⟨h1, h2⟩ := h
          subst h2
          exact ⟨rfl, Or.inl rfl⟩
        · simp only [Option.some.injEq, Prod.mk.injEq] at h
          obtain ⟨h1, h2⟩ := h
          subst h2
          exact ⟨rfl, Or.inr rfl⟩

/-- Whatever `mine` returns, the chain either stays as it was or grows by one
block whose index is the old last block's index plus one. -/
theorem mine_cases (H : BlockInfo → String) (t0 fuel : Nat) (c : BlockChain) (r : MineResult)
    (c2 : BlockChain) (h : mine H t0 fuel c = some (r, c2)) :
    c2.chain = c.chain ∨
    ∃ last b2, c.chain.getLast? = some last ∧ c2.chain = c.chain ++ [b2] ∧
      b2.index = last.index + 1 := by
  unfold mine at h
  split at h
  · exact absurd h (by simp)
  next last hlast =>
    split at h
    · simp only [Option.some.injEq, Prod.mk.injEq] at h
      obtain ⟨h1, h2⟩ := h
      subst h2
      exact Or.inl rfl
    · split at h
      · exact absurd h (by simp)
      next lastHash hlh =>
        try dsimp only at h
        split at h
        · exact absurd h (by simp)
        next sealed hpw =>
          try dsimp only at h
          split at h
          · exact absurd h (by simp)
          next proof hproof =>
            try dsimp only at h
            split at h
            · exact absurd h (by simp)
            next bres c1 hab =>
              try dsimp only at h
              split at h
              · exact absurd h (by simp)
              next lb hlb =>
                simp only [Option.some.injEq, Prod.mk.injEq] at h
                obtain ⟨h1, h2⟩ := h
                subst h2
                obtain ⟨hu, hch⟩ := add_block_cases H c sealed proof bres c1 hab
                cases hch with
                | inl he => exact Or.inl he
                | inr he =>
                  refine Or.inr ⟨last, { sealed with hashcode := some proof }, hlast, he, ?_⟩
                  obtain ⟨hidx, _⟩ := proofOfWork_spec H BlockChain.difficulty fuel _ sealed hpw
                  exact hidx

/-- Appending on the right does not change a non-empty list's head. -/
theorem head?_append_left (l l2 : List Block) (g : Block) (h : l.head? = some g) :
    (l ++ l2).head? = some g := by
  cases l with
  | nil => simp at h
  | cons a t => exact h

/-- Appending a block whose index is the last block's index plus one preserves
the position-equals-index invariant. -/
theorem index_inv_append (ch : List Block) (last b2 : Block)
    (hinv : ∀ i bb, ch.get? i = some bb → bb.index = i)
    (hl : ch.getLast? = some last) (hb : b2.index = last.index + 1) :
    ∀ i bb, (ch ++ [b2]).get? i = some bb → bb.index = i := by
  have hne : ch ≠ [] := by
    intro he
    rw [he] at hl
    simp at hl
  have hlen : 0 < ch.length := List.length_pos.mpr hne
  have hlast : ch.get? (ch.length - 1) = some last := by
    rw [← List.getLast?_eq_get?]
    exact hl
  have hlidx : last.index = ch.length - 1 := hinv _ _ hlast
  intro i bb hget
  rcases Nat.lt_trichotomy i ch.length with hlt | heq | hgt
  · rw [List.get?_append hlt] at hget
    exact hinv _ _ hget
  · subst heq
    rw [List.get?_concat_length] at hget
    cases hget
    rw [hb, hlidx]
    omega
  · have hnone : (ch ++ [b2]).get? i = none := by
      rw [List.get?_eq_none]
      simp only [List.length_append, List.length_singleton]
      omega
    rw [hnone] at hget
    exact absurd hget (by simp)

/-- A predicate preserved by every allowed single operation is preserved by
any run of allowed operations. -/
theorem runOps_preserves (H : BlockInfo → String) (t0 : Nat) (P : BlockChain → Prop)
    (ok : Op → Bool)
    (hstep : ∀ c op c2, ok op = true → P c → applyOp H t0 c op = some c2 → P c2) :
    ∀ ops c0 c, ops.all ok = true → P c0 → runOps H t0 c0 ops = some c → P c := by
  intro ops
  induction ops with
  | nil =>
    intro c0 c _ hp hr
    unfold runOps at hr
    simp only [Option.some.injEq] at hr
    subst hr
    exact hp
  | cons op ops ih =>
    intro c0 c hall hp hr
    unfold runOps at hr
    rw [List.all_cons, Bool.and_eq_true] at hall
    cases hap : applyOp H t0 c0 op with
    | none => rw [hap] at hr; exact absurd hr (by simp)
    | some c1 =>
      rw [hap] at hr
      try dsimp only at hr
      exact ih c1 c hall.2 (hstep c0 op c1 hall.1 hp hap) hr

/-- A successfully constructed `BlockChain` is a genesis-only ledger whose
genesis has index 0, empty content and the sentinel previous hash. -/
theorem blockchainInit_spec (H : BlockInfo → String) (t0 fuel : Nat) (c0 : BlockChain)
    (h : blockchainInit H t0 fuel = some c0) :
    ∃ g, c0 = ⟨[], [g]⟩ ∧ g.index = 0 ∧ g.content = [] ∧ g.previous_hash = ("0") := by
  unfold blockchainInit generateGenesisBlock at h
  cases hg : proofOfWork H BlockChain.difficulty fuel (blockNew H t0 0 [] ("0") none 0 none) with
  | none => rw [hg] at h; exact absurd h (by simp)
  | some g =>
    rw [hg] at h
    simp only [Option.map_some', Option.some.injEq] at h
    obtain ⟨hidx, hcont, hprev, _⟩ := proofOfWork_spec H BlockChain.difficulty fuel _ g hg
    exact ⟨g, h.symm, hidx, hcont, hprev⟩

/-- C1: the claim says `chain_is_valid` accepts the genesis block
unconditionally and requires each later block's `previous_hash` to equal the
predecessor's recomputed hash.  The code instead rejects any correctly linked
chain: evaluated on a well-formed genesis-only chain (sentinel previous hash
`"0"`, stored hash equal to the recomputed digest and starting with four
zeros, as the second conjunct certifies), it returns `False`, because its
linkage test `not previous_hash != block.previous_hash` fires exactly when the
linkage is correct and genesis is not exempted from it. -/
theorem chain_is_valid_rejects_linked_genesis :
    chain_is_valid Htoy [⟨0, [], ("0"), 0, 0, some ("0000"), none⟩] =
      (some false, [⟨0, [], ("0"), 0, 0, none, none⟩]) ∧
    is_valid_proof Htoy (⟨0, [], ("0"), 0, 0, some ("0000"), none⟩ : Block) ("0000") = true := by
  exact ⟨rfl, rfl⟩

/-- C2 counterexample: the claim quantifies over every block, but when
`proof_of_work` starts on a block whose stored hash already satisfies the
leading-zero predicate while differing from the recomputed digest, the loop
exits immediately, the stored hash does not equal the recomputed digest, and
`is_valid_proof` rejects the block with its stored hash. -/
theorem proof_of_work_poisoned_counterexample :
    proofOfWork (fun _ => ("1111")) 4 9 ⟨0, [], ("0"), 0, 0, some ("0000"), none⟩ =
      some ⟨0, [], ("0"), 0, 0, some ("0000"), none⟩ ∧
    computeHash (fun _ => ("1111")) (⟨0, [], ("0"), 0, 0, some ("0000"), none⟩ : Block) ≠ ("0000") ∧
    is_valid_proof (fun _ => ("1111")) (⟨0, [], ("0"), 0, 0, some ("0000"), none⟩ : Block) ("0000") = false := by
  refine ⟨rfl, by decide, rfl⟩

/-- C2 (amended): for every block whose stored hash equals the recomputed
digest of its current fields when the search starts — which `Block.__init__`
establishes for every freshly constructed block — termination of
`proof_of_work` at difficulty `d` leaves a stored hash equal to the recomputed
digest and starting with `d` zero characters; and `is_valid_proof` accepts a
claimed hash exactly when it starts with `BlockChain.difficulty` zero
characters and equals the recomputed digest. -/
theorem proof_of_work_seal_and_verify (H : BlockInfo → String) (d fuel : Nat) (b b' : Block)
    (hinv : b.hashcode = some (computeHash H b))
    (hpow : proofOfWork H d fuel b = some b') :
    b'.hashcode = some (computeHash H b') ∧
    pyStartswith (computeHash H b') (zeros d) = true ∧
    (∀ bb : Block, ∀ hh : String, is_valid_proof H bb hh = true ↔
      (pyStartswith hh (zeros BlockChain.difficulty) = true ∧ hh = computeHash H bb)) := by
  obtain ⟨_, _, _, _, _, hh, hhc, hhs, hhi⟩ := proofOfWork_spec H d fuel b b' hpow
  have hhe : hh = computeHash H b' := hhi hinv
  subst hhe
  refine ⟨hhc, hhs, ?_⟩
  intro bb hh2
  unfold is_valid_proof
  rw [Bool.and_eq_true]
  constructor
  · rintro ⟨h1, h2⟩
    exact ⟨h1, by simpa using h2⟩
  · rintro ⟨h1, h2⟩
    exact ⟨h1, by simpa using h2⟩

/-- C2 witness: the amended theorem evaluated on the freshly constructed
genesis block under the stand-in digest, with the verifier instantiated at
that block and its stored hash. -/
theorem proof_of_work_seal_and_verify_witness :
    gBlockToy.hashcode = some (computeHash Htoy gBlockToy) ∧
    proofOfWork Htoy 4 0 gBlockToy = some gBlockToy ∧
    (gBlockToy.hashcode = some (computeHash Htoy gBlockToy) ∧
      pyStartswith (computeHash Htoy gBlockToy) (zeros 4) = true ∧
      (is_valid_proof Htoy gBlockToy ("0000") = true ↔
        (pyStartswith ("0000") (zeros BlockChain.difficulty) = true ∧
          ("0000") = computeHash Htoy gBlockToy))) := by
  have h := proof_of_work_seal_and_verify Htoy 4 0 gBlockToy gBlockToy rfl rfl
  exact ⟨rfl, rfl, h.1, h.2.1, h.2.2 gBlockToy ("0000")⟩

/-- C3: on a ledger whose last block carries a stored hash, `add_block`
rejects with the ledger unchanged whenever the proposed block's
`previous_hash` differs from the last block's stored hash (regardless of the
proposed proof) or whenever `is_valid_proof` fails on the block and proof;
when both checks pass it appends the block (with its `hashcode` set to the
proof) and reports success. -/
theorem add_block_admission (H : BlockInfo → String) (c : BlockChain) (b : Block)
    (proof : String) (last : Block) (lh : String)
    (hl : c.chain.getLast? = some last) (hh : last.hashcode = some lh) :
    (lh ≠ b.previous_hash → add_block H c b proof = some (false, c)) ∧
    (is_valid_proof H b proof = false → add_block H c b proof = some (false, c)) ∧
    (lh = b.previous_hash → is_valid_proof H b proof = true →
      add_block H c b proof = some (true,
        { c with chain := c.chain ++ [{ b with hashcode := some proof }] })) :=
  add_block_spec H c b proof last lh hl hh

/-- C3 witness: a block with a mismatched `previous_hash` (and even a valid
proof) is rejected by the genesis-only ledger, which is returned unchanged. -/
theorem add_block_admission_witness :
    bcToy.chain.getLast? = some gBlockToy ∧
    gBlockToy.hashcode = some ("0000") ∧
    (("0000") ≠ (⟨9, ["w"], ("no-match"), 0, 0, some ("0000"), none⟩ : Block).previous_hash) ∧
    add_block Htoy bcToy ⟨9, ["w"], ("no-match"), 0, 0, some ("0000"), none⟩ ("0000") =
      some (false, bcToy) := by
  refine ⟨rfl, rfl, by decide, ?_⟩
  exact (add_block_admission Htoy bcToy _ _ gBlockToy ("0000") rfl rfl).1 (by decide)

/-- C4: the claim says `consensus` only ever replaces the ledger with a
strictly longer validated candidate, so the resulting chain length never
drops.  The code compares the peer's self-reported `length` field, not the
actual chain, and on replacement assigns the raw (mutated) block list to the
global: a peer reporting length 3 with a single-block chain that passes the
code's `chain_is_valid` displaces a two-block local ledger, leaving a
one-block raw list — strictly shorter than the local chain, as the second
conjunct certifies. -/
theorem consensus_shortens_ledger :
    consensus Htoy
        ⟨[], [⟨0, [], ("0"), 0, 0, some ("0000"), none⟩,
              ⟨1, ["a"], ("0000"), 0, 0, some ("0000"), none⟩]⟩
        [(3, [⟨0, ["x"], ("9"), 0, 0, some ("0000"), none⟩])] =
      some (true, NodeState.rawList [⟨0, ["x"], ("9"), 0, 0, none, some ("0000")⟩]) ∧
    ([(⟨0, ["x"], ("9"), 0, 0, none, some ("0000")⟩ : Block)]).length <
      (⟨[], [⟨0, [], ("0"), 0, 0, some ("0000"), none⟩,
             ⟨1, ["a"], ("0000"), 0, 0, some ("0000"), none⟩]⟩ : BlockChain).chain.length := by
  exact ⟨rfl, by decide⟩

/-- C5: on a ledger with pending data whose `mine` call completes, the chain
grows by exactly one block carrying index `last.index + 1`, content equal to
the pending buffer in submission order, `previous_hash` equal to the last
block's stored hash, and a sealed hash that is the recomputed digest
satisfying the difficulty predicate; the pending buffer is empty afterwards
and the returned value is the new block's index. -/
theorem mine_appends_pending_block (H : BlockInfo → String) (t0 fuel : Nat)
    (c : BlockChain) (r : MineResult) (c2 : BlockChain) (last : Block)
    (hne : c.unconfirmed_data ≠ [])
    (hl : c.chain.getLast? = some last)
    (hm : mine H t0 fuel c = some (r, c2)) :
    ∃ b : Block,
      c2.chain = c.chain ++ [b] ∧
      b.index = last.index + 1 ∧
      b.content = c.unconfirmed_data ∧
      some b.previous_hash = last.hashcode ∧
      pyStartswith (computeHash H b) (zeros BlockChain.difficulty) = true ∧
      b.hashcode = some (computeHash H b) ∧
      c2.unconfirmed_data = [] ∧
      c2.chain.length = c.chain.length + 1 ∧
      r = MineResult.mined b.index := by
  unfold mine at hm
  rw [hl] at hm
  try dsimp only at hm
  have hie : c.unconfirmed_data.isEmpty = false := by
    cases hq : c.unconfirmed_data with
    | nil => exact absurd hq hne
    | cons a t => rfl
  rw [hie] at hm
  try simp only [Bool.false_eq_true, if_false] at hm
  cases hlh : last.hashcode with
  | none => rw [hlh] at hm; exact absurd hm (by simp)
  | some lastHash =>
    rw [hlh] at hm
    try dsimp only at hm
    cases hpw : proofOfWork H BlockChain.difficulty fuel
        (blockNew H t0 (last.index + 1) c.unconfirmed_data lastHash none 0 none) with
    | none => rw [hpw] at hm; exact absurd hm (by simp)
    | some sealed =>
      rw [hpw] at hm
      try dsimp only at hm
      obtain ⟨hidx, hcont, hprev, hts, hth, hh, hhc, hhs, hhi⟩ :=
        proofOfWork_spec H BlockChain.difficulty fuel _ sealed hpw
      have hhe : hh = computeHash H sealed := hhi rfl
      rw [hhc] at hm
      try dsimp only at hm
      have hab : add_block H c sealed hh = some (true,
          { c with chain := c.chain ++ [{ sealed with hashcode := some hh }] }) := by
        have hvp : is_valid_proof H sealed hh = true := by
          have hhs2 : pyStartswith (computeHash H sealed) (zeros BlockChain.difficulty) = true :=
            hhe ▸ hhs
          unfold is_valid_proof
          rw [hhe]
          simp [hhs2]
        have hbp : sealed.previous_hash = lastHash := hprev
        exact (add_block_spec H c sealed hh last lastHash hl hlh).2.2 hbp.symm hvp
      rw [hab] at hm
      try dsimp only at hm
      rw [List.getLast?_concat] at hm
      try dsimp only at hm
      rw [Option.some.injEq, Prod.mk.injEq] at hm
      obtain ⟨hr, hc2⟩ := hm
      refine ⟨{ sealed with hashcode := some hh }, ?_, ?_, ?_, ?_, ?_, ?_, ?_, ?_, ?_⟩
      · rw [← hc2]
      · exact hidx
      · exact hcont
      · exact congrArg some hprev
      · have heq : computeHash H { sealed with hashcode := some hh } = computeHash H sealed := rfl
        rw [heq, ← hhe]
        exact hhs
      · have heq : computeHash H { sealed with hashcode := some hh } = computeHash H sealed := rfl
        rw [heq, ← hhe]
      · rw [← hc2]
      · rw [← hc2]
        simp
      · rw [← hr]

/-- C5 witness: mining one pending record on the genesis-only ledger appends
block 1 carrying exactly that record, clears the buffer and returns index 1. -/
theorem mine_appends_pending_block_witness :
    (⟨["d"], [gBlockToy]⟩ : BlockChain).unconfirmed_data ≠ [] ∧
    (⟨["d"], [gBlockToy]⟩ : BlockChain).chain.getLast? = some gBlockToy ∧
    mine Htoy 0 0 ⟨["d"], [gBlockToy]⟩ =
      some (MineResult.mined 1,
        ⟨[], [gBlockToy, ⟨1, ["d"], ("0000"), 0, 0, some ("0000"), none⟩]⟩) ∧
    (∃ b : Block,
      (⟨[], [gBlockToy, ⟨1, ["d"], ("0000"), 0, 0, some ("0000"), none⟩]⟩ : BlockChain).chain =
        (⟨["d"], [gBlockToy]⟩ : BlockChain).chain ++ [b] ∧
      b.index = gBlockToy.index + 1 ∧
      b.content = (⟨["d"], [gBlockToy]⟩ : BlockChain).unconfirmed_data ∧
      some b.previous_hash = gBlockToy.hashcode ∧
      pyStartswith (computeHash Htoy b) (zeros BlockChain.difficulty) = true ∧
      b.hashcode = some (computeHash Htoy b) ∧
      (⟨[], [gBlockToy, ⟨1, ["d"], ("0000"), 0, 0, some ("0000"), none⟩]⟩ : BlockChain).unconfirmed_data = [] ∧
      (⟨[], [gBlockToy, ⟨1, ["d"], ("0000"), 0, 0, some ("0000"), none⟩]⟩ : BlockChain).chain.length =
        (⟨["d"], [gBlockToy]⟩ : BlockChain).chain.length + 1 ∧
      MineResult.mined 1 = MineResult.mined b.index) := by
  refine ⟨by decide, rfl, rfl, ?_⟩
  exact mine_appends_pending_block Htoy 0 0 ⟨["d"], [gBlockToy]⟩ (MineResult.mined 1)
    ⟨[], [gBlockToy, ⟨1, ["d"], ("0000"), 0, 0, some ("0000"), none⟩]⟩ gBlockToy
    (by decide) rfl rfl

/-- C6 counterexample: the claim asserts `blocks[i].index == i` in every state
reachable by submit, mine and accept, but `add_block` never checks the index:
starting from the freshly created ledger, accepting a peer block with index 5,
a matching `previous_hash` and a valid proof yields a reachable state whose
position-1 block has index 5. -/
theorem index_invariant_counterexample :
    blockchainInit Htoy 0 0 = some ⟨[], [⟨0, [], ("0"), 0, 0, some ("0000"), none⟩]⟩ ∧
    runOps Htoy 0 ⟨[], [⟨0, [], ("0"), 0, 0, some ("0000"), none⟩]⟩
        [Op.add_block_op ⟨5, ["x"], ("0000"), 0, 0, some ("0000"), none⟩ ("0000")] =
      some ⟨[], [⟨0, [], ("0"), 0, 0, some ("0000"), none⟩,
                 ⟨5, ["x"], ("0000"), 0, 0, some ("0000"), none⟩]⟩ ∧
    (⟨[], [⟨0, [], ("0"), 0, 0, some ("0000"), none⟩,
           ⟨5, ["x"], ("0000"), 0, 0, some ("0000"), none⟩]⟩ : BlockChain).chain.get? 1 =
      some ⟨5, ["x"], ("0000"), 0, 0, some ("0000"), none⟩ ∧
    (5 : Nat) ≠ 1 := by
  refine ⟨rfl, rfl, rfl, by decide⟩

/-- C6 (amended): every state reachable from a freshly created ledger by
submit, mine and accept operations has a non-empty chain whose position-0
block is the genesis block (index 0, empty content, sentinel previous hash);
and every state reachable using submit and mine alone additionally satisfies
`blocks[i].index == i` for all positions — accept does not check the index,
so peer-accepted blocks can break the latter. -/
theorem reachable_genesis_and_index_invariant (H : BlockInfo → String) (t0 fuel : Nat)
    (ops : List Op) (c0 c : BlockChain)
    (hinit : blockchainInit H t0 fuel = some c0)
    (hrun : runOps H t0 c0 ops = some c) :
    (c.chain ≠ [] ∧
      ∀ g, c.chain.head? = some g →
        g.index = 0 ∧ g.content = [] ∧ g.previous_hash = ("0")) ∧
    (ops.all (fun op => !op.isPeerBlock) = true →
      ∀ i b, c.chain.get? i = some b → b.index = i) := by
  obtain ⟨g0, hc0, hg0i, hg0c, hg0p⟩ := blockchainInit_spec H t0 fuel c0 hinit
  subst hc0
  constructor
  · have hmain : c.chain ≠ [] ∧ c.chain.head? = some g0 := by
      refine runOps_preserves H t0 (fun cc => cc.chain ≠ [] ∧ cc.chain.head? = some g0)
        (fun _ => true) ?_ ops _ c ?_ ?_ hrun
      · intro cc op c2 _ hp hap
        cases op with
        | add_data_op d =>
          simp only [applyOp] at hap
          cases hap
          exact hp
        | mine_op fl =>
          simp only [applyOp] at hap
          cases hm2 : mine H t0 fl cc with
          | none => rw [hm2] at hap; exact absurd hap (by simp)
          | some rc =>
            obtain ⟨r2, cm⟩ := rc
            rw [hm2] at hap
            simp only [Option.map_some', Option.some.injEq] at hap
            subst hap
            rcases mine_cases H t0 fl cc r2 cm hm2 with hsame | ⟨last, b2, hlast, happ, hbi⟩
            · exact ⟨by rw [hsame]; exact hp.1, by rw [hsame]; exact hp.2⟩
            · constructor
              · rw [happ]
                intro hcon
                exact absurd (List.append_eq_nil.mp hcon).2 (by simp)
              · rw [happ]
                exact head?_append_left _ _ _ hp.2
        | add_block_op b p =>
          simp only [applyOp] at hap
          cases hab : add_block H cc b p with
          | none => rw [hab] at hap; exact absurd hap (by simp)
          | some rc =>
            obtain ⟨r2, cm⟩ := rc
            rw [hab] at hap
            simp only [Option.map_some', Option.some.injEq] at hap
            subst hap
            obtain ⟨hu, hch⟩ := add_block_cases H cc b p r2 cm hab
            cases hch with
            | inl he => exact ⟨by rw [he]; exact hp.1, by rw [he]; exact hp.2⟩
            | inr he =>
              constructor
              · rw [he]
                intro hcon
                exact absurd (List.append_eq_nil.mp hcon).2 (by simp)
              · rw [he]
                exact head?_append_left _ _ _ hp.2
      · exact List.all_eq_true.mpr (fun _ _ => rfl)
      · exact ⟨by simp, rfl⟩
    refine ⟨hmain.1, ?_⟩
    intro g hg
    rw [hmain.2] at hg
    cases hg
    exact ⟨hg0i, hg0c, hg0p⟩
  · intro hall
    refine runOps_preserves H t0 (fun cc => ∀ i b, cc.chain.get? i = some b → b.index = i)
      (fun op => !op.isPeerBlock) ?_ ops _ c hall ?_ hrun
    · intro cc op c2 hok hp hap
      cases op with
      | add_data_op d =>
        simp only [applyOp] at hap
        cases hap
        exact hp
      | mine_op fl =>
        simp only [applyOp] at hap
        cases hm2 : mine H t0 fl cc with
        | none => rw [hm2] at hap; exact absurd hap (by simp)
        | some rc =>
          obtain ⟨r2, cm⟩ := rc
          rw [hm2] at hap
          simp only [Option.map_some', Option.some.injEq] at hap
          subst hap
          rcases mine_cases H t0 fl cc r2 cm hm2 with hsame | ⟨last, b2, hlast, happ, hbi⟩
          · intro i b hg
            rw [hsame] at hg
            exact hp i b hg
          · intro i b hg
            rw [happ] at hg
            exact index_inv_append cc.chain last b2 hp hlast hbi i b hg
      | add_block_op b p =>
        simp [Op.isPeerBlock] at hok
    · intro i b hg
      cases i with
      | zero =>
        cases hg
        exact hg0i
      | succ n => simp at hg

/-- C6 witness: the amended theorem evaluated on the empty run from the
freshly created ledger under the stand-in digest. -/
theorem reachable_genesis_and_index_invariant_witness :
    blockchainInit Htoy 0 0 = some bcToy ∧
    runOps Htoy 0 bcToy [] = some bcToy ∧
    bcToy.chain ≠ [] ∧
    (gBlockToy.index = 0 ∧ gBlockToy.content = [] ∧ gBlockToy.previous_hash = ("0")) ∧
    gBlockToy.index = 0 := by
  have h := reachable_genesis_and_index_invariant Htoy 0 0 [] bcToy bcToy rfl rfl
  exact ⟨rfl, rfl, h.1.1, h.1.2 gBlockToy rfl, h.2 rfl 0 gBlockToy rfl⟩

/-- C7: the claim says `chain_is_valid` is idempotent, but the first run
removes every visited block's `hashcode` attribute (restoring the value under
the misspelled attribute `this_hash`), so a second run on the same list raises
AttributeError (`none`) instead of repeating the first result — here a chain
the first run accepts makes the second run crash. -/
theorem chain_is_valid_second_run_crashes :
    chain_is_valid Htoy [⟨0, ["x"], ("9"), 0, 0, some ("0000"), none⟩] =
      (some true, [⟨0, ["x"], ("9"), 0, 0, none, some ("0000")⟩]) ∧
    chain_is_valid Htoy [⟨0, ["x"], ("9"), 0, 0, none, some ("0000")⟩] =
      (none, [⟨0, ["x"], ("9"), 0, 0, none, some ("0000")⟩]) := by
  exact ⟨rfl, rfl⟩

/-- C8: on a ledger with a non-empty chain and an empty pending buffer, `mine`
returns the nothing-to-mine signal (Python's `False`, not an exception) and
the ledger is returned exactly as it was. -/
theorem mine_empty_pending_noop (H : BlockInfo → String) (t0 fuel : Nat) (c : BlockChain)
    (h1 : c.unconfirmed_data = []) (h2 : c.chain ≠ []) :
    mine H t0 fuel c = some (MineResult.noData, c) := by
  obtain ⟨last, hl⟩ : ∃ last, c.chain.getLast? = some last := by
    cases hq : c.chain.getLast? with
    | none => exact absurd (List.getLast?_eq_none.mp hq) h2
    | some a => exact ⟨a, rfl⟩
  unfold mine
  rw [hl]
  dsimp only
  rw [h1]
  rfl

/-- C8 witness: mining the genesis-only ledger with an empty buffer returns
the no-data signal and the unchanged ledger. -/
theorem mine_empty_pending_noop_witness :
    bcToy.unconfirmed_data = [] ∧ bcToy.chain ≠ [] ∧
    mine Htoy 0 0 bcToy = some (MineResult.noData, bcToy) := by
  refine ⟨rfl, by decide, mine_empty_pending_noop Htoy 0 0 bcToy rfl (by decide)⟩

/-- C9: the claim says two blocks constructed at different times without an
explicit timestamp receive their respective construction moments and hence
differ.  In the source the default `timestamp=time.time()` is evaluated once,
when the `class Block` body executes, so every such construction — whatever
the wall-clock time of the call — receives the same module-load value `t0`
(here 100): two distinct constructions share it. -/
theorem block_timestamp_default_shared :
    (blockNew Htoy 100 0 [] ("0") none 0 none).timestamp = 100 ∧
    (blockNew Htoy 100 7 ["x"] ("p") none 3 (some ("z"))).timestamp = 100 := by
  exact ⟨rfl, rfl⟩

/-- C10: the `Block` constructor assigns `nonce = 0` and recomputes the
stored hash from the freshly assigned fields, so the `nonce` and `hashcode`
arguments are ignored entirely: the resulting block has nonce 0, stored hash
equal to the recomputed digest of its fields, and equals the block built with
the default arguments. -/
theorem block_constructor_ignores_nonce_and_hash (H : BlockInfo → String) (t0 index : Nat)
    (content : List String) (previous_hash : String) (timestamp : Option Nat) (nonce : Nat)
    (hashcode : Option String) :
    (blockNew H t0 index content previous_hash timestamp nonce hashcode).nonce = 0 ∧
    (blockNew H t0 index content previous_hash timestamp nonce hashcode).hashcode =
      some (computeHash H (blockNew H t0 index content previous_hash timestamp nonce hashcode)) ∧
    blockNew H t0 index content previous_hash timestamp nonce hashcode =
      blockNew H t0 index content previous_hash timestamp 0 none := by
  exact ⟨rfl, rfl, rfl⟩
